import Mathlib

set_option maxHeartbeats 1000000

/-!
Verification development for the LED-matrix frame transport pipeline:
a shallow embedding of the UDP chunked-frame receiver
(`src/udp_matrix_receiver.cc`) and of the TCP stream daemon
(`src/matrix_daemon.cc`), with theorems about reassembly, validation,
completion, stream framing and the vertical-flip render copy.
-/

namespace UdpReceiver

/-- Display width in pixels (4 chained 64-wide panels). -/
def WIDTH : Nat := 256

/-- Display height in pixels (3 parallel 64-high panels). -/
def HEIGHT : Nat := 192

/-- Bytes in one full RGB frame (`WIDTH * HEIGHT * 3`). -/
def FRAME_BYTES : Nat := WIDTH * HEIGHT * 3

/-- Payload bytes carried per UDP packet. -/
def CHUNK_SIZE : Nat := 1024

/-- A parsed UDP datagram: the three 16-bit header fields
(`frame_id`, `packet_index`, `total_packets`) and the payload bytes
(`payload_len = n - HEADER_SIZE` in the source). -/
structure Packet where
  frame_id : Nat
  packet_index : Nat
  total_packets : Nat
  payload : List Nat

/-- The receiver's frame-reassembly state: the frame buffer (modelled as a
byte-indexed function), the id of the frame being assembled, the expected
packet count, the received-packet bitmap and the received-packet counter
(lines 99-103 of the source). -/
structure RState where
  frame_buf : Nat → Nat
  current_frame_id : Nat
  expected_packets : Nat
  got_packet : Nat → Bool
  received_packets : Nat

/-- Initial reassembly state: zero-filled buffer, `current_frame_id = 0`,
`expected_packets = 0`, empty bitmap, zero counter. -/
def sInit : RState := ⟨fun _ => 0, 0, 0, fun _ => false, 0⟩

/-- `memcpy(&frame_buf[off], data, data.length)` on the byte-function model:
positions `off ≤ i < off + data.length` take the payload byte, all others
keep their previous value. -/
def writeBytes (buf : Nat → Nat) (off : Nat) (data : List Nat) : Nat → Nat :=
  fun i => if off ≤ i ∧ i < off + data.length then data.getD (i - off) 0 else buf i

/-- The "new frame?" block (lines 127-133): a packet whose `frame_id`
differs from `current_frame_id` resets the whole state — new id, expected
count from this packet's `total_packets`, cleared bitmap, zero counter,
zero-filled buffer.  Otherwise the state is unchanged. -/
def frameSwitch (s : RState) (p : Packet) : RState :=
  if p.frame_id ≠ s.current_frame_id then
    ⟨fun _ => 0, p.frame_id, p.total_packets, fun _ => false, 0⟩
  else s

/-- `copy_len` (lines 142-145): the payload length, clamped so that the
write ends at `FRAME_BYTES`. -/
def copyLen (p : Packet) : Nat :=
  if FRAME_BYTES < p.packet_index * CHUNK_SIZE + p.payload.length then
    FRAME_BYTES - p.packet_index * CHUNK_SIZE
  else p.payload.length

/-- One iteration of the receive loop on a parsed datagram
(lines 122-167): drop oversized payloads; maybe switch frames; drop
`packet_index ≥ expected_packets` and `offset ≥ FRAME_BYTES`; otherwise
copy the (clamped) payload, mark the bitmap (incrementing
`received_packets` only the first time), and report whether the
completion check `received_packets == expected_packets` fired (which is
when the frame is rendered and swapped to the display). -/
def offer (s : RState) (p : Packet) : RState × Bool :=
  if CHUNK_SIZE < p.payload.length then (s, false)
  else if (frameSwitch s p).expected_packets ≤ p.packet_index then (frameSwitch s p, false)
  else if FRAME_BYTES ≤ p.packet_index * CHUNK_SIZE then (frameSwitch s p, false)
  else if (frameSwitch s p).got_packet p.packet_index then
    (⟨writeBytes (frameSwitch s p).frame_buf (p.packet_index * CHUNK_SIZE)
        (p.payload.take (copyLen p)),
      (frameSwitch s p).current_frame_id, (frameSwitch s p).expected_packets,
      (frameSwitch s p).got_packet, (frameSwitch s p).received_packets⟩,
      decide ((frameSwitch s p).received_packets = (frameSwitch s p).expected_packets))
  else
    (⟨writeBytes (frameSwitch s p).frame_buf (p.packet_index * CHUNK_SIZE)
        (p.payload.take (copyLen p)),
      (frameSwitch s p).current_frame_id, (frameSwitch s p).expected_packets,
      fun j => if j = p.packet_index then true else (frameSwitch s p).got_packet j,
      (frameSwitch s p).received_packets + 1⟩,
      decide ((frameSwitch s p).received_packets + 1 = (frameSwitch s p).expected_packets))

/-- The state after one datagram. -/
def step (s : RState) (p : Packet) : RState := (offer s p).1

/-- The state after a whole sequence of datagrams. -/
def run (s : RState) (ps : List Packet) : RState := ps.foldl step s

/-- The frame buffers handed to the display (rendered and swapped) while
processing a sequence of datagrams, in order. -/
def runFrames (s : RState) : List Packet → List (Nat → Nat)
  | [] => []
  | p :: ps =>
      (if (offer s p).2 then [(offer s p).1.frame_buf] else []) ++ runFrames (offer s p).1 ps

/-- Number of set bits in the received bitmap, over the expected range. -/
def popcount (s : RState) : Nat :=
  List.countP (fun j => s.got_packet j) (List.range s.expected_packets)

/-- The counter/bitmap invariant of the reassembly state. -/
def Inv (s : RState) : Prop := s.received_packets = popcount s

lemma frameSwitch_same {s : RState} {p : Packet} (h : p.frame_id = s.current_frame_id) :
    frameSwitch s p = s := by
  simp [frameSwitch, h]

lemma frameSwitch_new {s : RState} {p : Packet} (h : p.frame_id ≠ s.current_frame_id) :
    frameSwitch s p = ⟨fun _ => 0, p.frame_id, p.total_packets, fun _ => false, 0⟩ := by
  simp [frameSwitch, h]

lemma frameSwitch_idem (s : RState) (p : Packet) :
    frameSwitch (frameSwitch s p) p = frameSwitch s p := by
  by_cases h : p.frame_id = s.current_frame_id
  · rw [frameSwitch_same h, frameSwitch_same h]
  · rw [frameSwitch_new h]
    exact frameSwitch_same rfl

lemma offer_switch {s : RState} {p : Packet} (hlen : p.payload.length ≤ CHUNK_SIZE) :
    offer s p = offer (frameSwitch s p) p := by
  simp only [offer, frameSwitch_idem, if_neg (Nat.not_lt.mpr hlen)]

lemma offer_at_init_fid0 (p : Packet) (h : p.frame_id = 0) :
    offer sInit p = (sInit, false) := by
  have hs : frameSwitch sInit p = sInit := frameSwitch_same (by simp [sInit, h])
  by_cases hl : CHUNK_SIZE < p.payload.length
  · simp [offer, hl]
  · simp only [offer, hs, if_neg hl]
    rw [if_pos]
    exact Nat.zero_le _

/-- Claim C10: at process start the reassembly state has
`current_frame_id = 0` and `expected_packets = 0`; consequently any
sequence of datagrams all carrying `frame_id = 0` leaves the state exactly
at its initial value (every such chunk is dropped: same id, so no reset,
and `packet_index ≥ 0 = expected_packets`), and no frame is ever rendered
or displayed. -/
theorem claim_C10 (ps : List Packet) (h : ∀ p ∈ ps, p.frame_id = 0) :
    sInit.current_frame_id = 0 ∧ sInit.expected_packets = 0 ∧
    run sInit ps = sInit ∧ runFrames sInit ps = [] := by
  refine ⟨rfl, rfl, ?_⟩
  induction ps with
  | nil => exact ⟨rfl, rfl⟩
  | cons p ps ih =>
      have hp : offer sInit p = (sInit, false) := offer_at_init_fid0 p (h p (by simp))
      have ih2 := ih (fun q hq => h q (by simp [hq]))
      constructor
      · show run (step sInit p) ps = sInit
        rw [show step sInit p = sInit by rw [step, hp]]
        exact ih2.1
      · show (if (offer sInit p).2 then [(offer sInit p).1.frame_buf] else []) ++
            runFrames (offer sInit p).1 ps = []
        rw [hp]
        simpa using ih2.2

/-- Witness for C10 at a concrete input: a frame-id-0 chunk sequence leaves
the state initial and displays nothing. -/
theorem claim_C10_witness :
    run sInit [⟨0, 0, 7, [1, 2, 3]⟩] = sInit ∧ runFrames sInit [⟨0, 0, 7, [1, 2, 3]⟩] = [] := by
  have h := claim_C10 [⟨0, 0, 7, [1, 2, 3]⟩] (by intro p hp; simp at hp; rw [hp])
  exact ⟨h.2.2.1, h.2.2.2⟩

lemma FRAME_BYTES_eq : FRAME_BYTES = 147456 := rfl

lemma CHUNK_SIZE_eq : CHUNK_SIZE = 1024 := rfl

/-- Claim C2: a chunk whose `packet_index` is at least the expected packet
count, or whose byte offset plus payload length would exceed the frame
buffer, is dropped with no error: the result is exactly the
frame-id-reconciled state with nothing written, nothing marked, nothing
counted, and no frame displayed; in particular for a chunk of the current
frame the state is completely untouched. -/
theorem claim_C2 (s : RState) (p : Packet)
    (hlen : p.payload.length ≤ CHUNK_SIZE)
    (hbad : (frameSwitch s p).expected_packets ≤ p.packet_index ∨
      FRAME_BYTES < p.packet_index * CHUNK_SIZE + p.payload.length) :
    offer s p = (frameSwitch s p, false) ∧
    (p.frame_id = s.current_frame_id → offer s p = (s, false)) := by
  have hmain : offer s p = (frameSwitch s p, false) := by
    rcases hbad with hb | hb
    · simp only [offer, if_neg (Nat.not_lt.mpr hlen), if_pos hb]
    · by_cases hidx : (frameSwitch s p).expected_packets ≤ p.packet_index
      · simp only [offer, if_neg (Nat.not_lt.mpr hlen), if_pos hidx]
      · have hoff : FRAME_BYTES ≤ p.packet_index * CHUNK_SIZE := by
          rw [FRAME_BYTES_eq, CHUNK_SIZE_eq] at hb ⊢
          rw [CHUNK_SIZE_eq] at hlen
          omega
        simp only [offer, if_neg (Nat.not_lt.mpr hlen), if_neg hidx, if_pos hoff]
  refine ⟨hmain, fun hid => ?_⟩
  rw [hmain, frameSwitch_same hid]

/-- Witness for C2 at a concrete input: at the initial state a chunk with
`packet_index = 5 ≥ 0 = expected_packets` is dropped with the state
untouched. -/
theorem claim_C2_witness : offer sInit ⟨0, 5, 0, []⟩ = (sInit, false) :=
  (claim_C2 sInit ⟨0, 5, 0, []⟩ (by decide) (Or.inl (by decide))).2 rfl

/-- Claim C6: a chunk whose `frame_id` differs from `current_frame_id`
fully resets the reassembly state before it is applied: new id, expected
count taken from this chunk's `total_packets`, bitmap and counter cleared,
every byte of the frame buffer zeroed; processing the chunk from the old
state is identical to processing it from the reset state. -/
theorem claim_C6 (s : RState) (p : Packet)
    (hlen : p.payload.length ≤ CHUNK_SIZE)
    (hnew : p.frame_id ≠ s.current_frame_id) :
    (frameSwitch s p).current_frame_id = p.frame_id ∧
    (frameSwitch s p).expected_packets = p.total_packets ∧
    (frameSwitch s p).received_packets = 0 ∧
    (∀ j, (frameSwitch s p).got_packet j = false) ∧
    (∀ i, (frameSwitch s p).frame_buf i = 0) ∧
    offer s p = offer (frameSwitch s p) p := by
  rw [frameSwitch_new hnew]
  exact ⟨rfl, rfl, rfl, fun _ => rfl, fun _ => rfl,
    by rw [offer_switch hlen, frameSwitch_new hnew]⟩

/-- Witness for C6 at a concrete input: a chunk with a fresh frame id
resets the expected count and zeroes the buffer. -/
theorem claim_C6_witness :
    (frameSwitch sInit ⟨1, 0, 3, [9]⟩).expected_packets = 3 ∧
    (frameSwitch sInit ⟨1, 0, 3, [9]⟩).frame_buf 5 = 0 ∧
    (frameSwitch sInit ⟨1, 0, 3, [9]⟩).received_packets = 0 := by
  have h := claim_C6 sInit ⟨1, 0, 3, [9]⟩ (by decide) (by decide)
  exact ⟨h.2.1, h.2.2.2.2.1 5, h.2.2.1⟩

/-- First chunk of frame 1 (index 0 of 2). -/
def pA : Packet := ⟨1, 0, 2, [5]⟩

/-- First chunk of frame 2 (index 0 of 2), superseding frame 1. -/
def pB : Packet := ⟨2, 0, 2, [7]⟩

/-- A late chunk of frame 1 (index 1 of 2), arriving after frame 2 began. -/
def pC : Packet := ⟨1, 1, 2, [9]⟩

/-- Counterexample to claim C1: after frame 2 has superseded frame 1
(chunk 0 of frame 2 is marked received), a late chunk bearing frame id 1
is NOT ignored: it resets the state back to frame id 1 and wipes frame 2's
partial assembly (its received bit for index 0 is cleared). -/
theorem claim_C1_cex :
    (run sInit [pA, pB]).current_frame_id = 2 ∧
    (run sInit [pA, pB]).got_packet 0 = true ∧
    (run sInit [pA, pB, pC]).current_frame_id = 1 ∧
    (run sInit [pA, pB, pC]).got_packet 0 = false :=
  ⟨rfl, rfl, rfl, rfl⟩

/-- Claim C1 as amended: once frame N+1 supersedes frame N, N's partial
data has been discarded (the switch zeroes the buffer); but a late chunk
carrying frame id N is not ignored — it is treated as the start of a fresh
frame N: the state is reset to id N with the expected count taken from the
late chunk (destroying N+1's partial assembly), at most the late chunk
itself is marked received, and every frame-buffer byte outside the late
chunk's own write range is zero, so no byte of N's or N+1's earlier
partial data survives. -/
theorem claim_C1_amended (s : RState) (p : Packet)
    (hlen : p.payload.length ≤ CHUNK_SIZE)
    (hnew : p.frame_id ≠ s.current_frame_id) :
    (step s p).current_frame_id = p.frame_id ∧
    (step s p).expected_packets = p.total_packets ∧
    (step s p).received_packets ≤ 1 ∧
    (∀ i, (i < p.packet_index * CHUNK_SIZE ∨
        p.packet_index * CHUNK_SIZE + p.payload.length ≤ i) →
      (step s p).frame_buf i = 0) := by
  have hstep : step s p =
      (offer (⟨fun _ => 0, p.frame_id, p.total_packets, fun _ => false, 0⟩ : RState) p).1 := by
    rw [step, offer_switch hlen, frameSwitch_new hnew]
  rw [hstep]
  have hsw : frameSwitch (⟨fun _ => 0, p.frame_id, p.total_packets, fun _ => false, 0⟩ : RState) p
      = (⟨fun _ => 0, p.frame_id, p.total_packets, fun _ => false, 0⟩ : RState) :=
    frameSwitch_same rfl
  simp only [offer, hsw, if_neg (Nat.not_lt.mpr hlen)]
  by_cases h1 : p.total_packets ≤ p.packet_index
  · rw [if_pos h1]
    exact ⟨rfl, rfl, Nat.zero_le _, fun i _ => rfl⟩
  · rw [if_neg h1]
    by_cases h2 : FRAME_BYTES ≤ p.packet_index * CHUNK_SIZE
    · rw [if_pos h2]
      exact ⟨rfl, rfl, Nat.zero_le _, fun i _ => rfl⟩
    · rw [if_neg h2]
      simp only [Bool.false_eq_true, if_false]
      refine ⟨trivial, trivial, Nat.le_refl _, fun i hi => ?_⟩
      show writeBytes (fun _ => 0) (p.packet_index * CHUNK_SIZE)
        (p.payload.take (copyLen p)) i = 0
      have htk : (p.payload.take (copyLen p)).length ≤ p.payload.length := by
        rw [List.length_take]
        exact Nat.min_le_right _ _
      rw [writeBytes, if_neg]
      rintro ⟨hlo, hhi⟩
      rcases hi with hi | hi
      · omega
      · omega

/-- Witness for the amended C1: concretely, the late frame-1 chunk `pC`
offered after frames 1 and 2 both began yields a state on frame id 1 with
at most one received chunk, and buffer bytes outside its write range are
zero. -/
theorem claim_C1_amended_witness :
    (step (run sInit [pA, pB]) pC).current_frame_id = 1 ∧
    (step (run sInit [pA, pB]) pC).received_packets ≤ 1 := by
  have h := claim_C1_amended (run sInit [pA, pB]) pC (by decide) (by decide)
  exact ⟨h.1, h.2.2.1⟩

lemma countP_update_true {g : Nat → Bool} {j : Nat} :
    ∀ {l : List Nat}, j ∈ l → l.Nodup → g j = false →
      List.countP (fun i => if i = j then true else g i) l =
        List.countP (fun i => g i) l + 1 := by
  intro l
  induction l with
  | nil => intro h; simp at h
  | cons a l ih =>
      intro hmem hnd hg
      rw [List.nodup_cons] at hnd
      rw [List.countP_cons, List.countP_cons]
      by_cases ha : a = j
      · subst ha
        rw [if_pos rfl, hg]
        have hnotin : a ∉ l := hnd.1
        have hcong : List.countP (fun i => if i = a then true else g i) l =
            List.countP (fun i => g i) l := by
          apply List.countP_congr
          intro x hx
          have hxa : x ≠ a := fun h => hnotin (h ▸ hx)
          simp [hxa]
        rw [hcong]
        simp
      · have hmem2 : j ∈ l := by
          rcases List.mem_cons.mp hmem with h | h
          · exact absurd h.symm ha
          · exact h
        rw [ih hmem2 hnd.2 hg, if_neg ha]
        omega

lemma inv_init : Inv sInit := by
  simp [Inv, popcount, sInit]

lemma inv_frameSwitch (s : RState) (p : Packet) (h : Inv s) : Inv (frameSwitch s p) := by
  by_cases hid : p.frame_id = s.current_frame_id
  · rw [frameSwitch_same hid]; exact h
  · rw [frameSwitch_new hid]
    simp [Inv, popcount]

lemma got_false_of_not_true {s : RState} {j : Nat} (h : ¬s.got_packet j = true) :
    s.got_packet j = false := by
  cases hc : s.got_packet j
  · rfl
  · exact absurd hc h

lemma idx_lt_of_not_le {a b : Nat} (h : ¬a ≤ b) : b < a := Nat.lt_of_not_le h

lemma inv_step {s : RState} (p : Packet) (h : Inv s) : Inv (step s p) := by
  have h1 : Inv (frameSwitch s p) := inv_frameSwitch s p h
  rw [step]
  simp only [offer]
  by_cases hl : CHUNK_SIZE < p.payload.length
  · rw [if_pos hl]; exact h
  rw [if_neg hl]
  by_cases hidx : (frameSwitch s p).expected_packets ≤ p.packet_index
  · rw [if_pos hidx]; exact h1
  rw [if_neg hidx]
  by_cases hoff : FRAME_BYTES ≤ p.packet_index * CHUNK_SIZE
  · rw [if_pos hoff]; exact h1
  rw [if_neg hoff]
  by_cases hgot : (frameSwitch s p).got_packet p.packet_index = true
  · rw [if_pos hgot]
    exact h1
  · rw [if_neg hgot]
    show (frameSwitch s p).received_packets + 1 =
      List.countP (fun j => if j = p.packet_index then true else (frameSwitch s p).got_packet j)
        (List.range (frameSwitch s p).expected_packets)
    rw [countP_update_true (List.mem_range.mpr (idx_lt_of_not_le hidx)) (List.nodup_range _)
      (got_false_of_not_true hgot)]
    rw [Inv, popcount] at h1
    omega

lemma dup_no_increment {s : RState} {p : Packet}
    (hgot : (frameSwitch s p).got_packet p.packet_index = true) :
    (step s p).received_packets = (frameSwitch s p).received_packets := by
  rw [step]
  simp only [offer]
  by_cases hl : CHUNK_SIZE < p.payload.length
  · rw [if_pos hl]
    by_cases hid : p.frame_id = s.current_frame_id
    · rw [frameSwitch_same hid]
    · rw [frameSwitch_new hid] at hgot
      simp at hgot
  rw [if_neg hl]
  by_cases hidx : (frameSwitch s p).expected_packets ≤ p.packet_index
  · rw [if_pos hidx]
  rw [if_neg hidx]
  by_cases hoff : FRAME_BYTES ≤ p.packet_index * CHUNK_SIZE
  · rw [if_pos hoff]
  rw [if_neg hoff, if_pos hgot]

/-- Claim C5: the invariant `received_packets = popcount(bitmap)` holds at
the initial state and is preserved by every offered chunk (accepted,
duplicate, or rejected), and a chunk whose index is already marked in the
bitmap never increments the counter. -/
theorem claim_C5 :
    Inv sInit ∧
    (∀ s p, Inv s → Inv (step s p)) ∧
    (∀ s p, (frameSwitch s p).got_packet p.packet_index = true →
      (step s p).received_packets = (frameSwitch s p).received_packets) :=
  ⟨inv_init, fun _ p h => inv_step p h, fun _ _ h => dup_no_increment h⟩

/-- Witness for C5 at a concrete input: the invariant holds after one
accepted chunk from the initial state. -/
theorem claim_C5_witness : Inv (step sInit ⟨1, 0, 2, [3]⟩) :=
  claim_C5.2.1 sInit ⟨1, 0, 2, [3]⟩ claim_C5.1

lemma all_got_of_countP {n : Nat} {g : Nat → Bool}
    (h : List.countP (fun j => g j) (List.range n) = n) : ∀ j < n, g j = true := by
  intro j hj
  have hlen : List.countP (fun j => g j) (List.range n) = (List.range n).length := by
    rw [h, List.length_range]
  have := List.countP_eq_length.mp hlen
  exact this j (List.mem_range.mpr hj)

lemma emit_complete {s : RState} {p : Packet} (hInv : Inv s)
    (he : (offer s p).2 = true) :
    (offer s p).1.received_packets = (offer s p).1.expected_packets ∧
    ∀ j < (offer s p).1.expected_packets, (offer s p).1.got_packet j = true := by
  have h1 : Inv (frameSwitch s p) := inv_frameSwitch s p hInv
  simp only [offer] at he ⊢
  by_cases hl : CHUNK_SIZE < p.payload.length
  · rw [if_pos hl] at he; simp at he
  rw [if_neg hl] at he ⊢
  by_cases hidx : (frameSwitch s p).expected_packets ≤ p.packet_index
  · rw [if_pos hidx] at he; simp at he
  rw [if_neg hidx] at he ⊢
  by_cases hoff : FRAME_BYTES ≤ p.packet_index * CHUNK_SIZE
  · rw [if_pos hoff] at he; simp at he
  rw [if_neg hoff] at he ⊢
  by_cases hgot : (frameSwitch s p).got_packet p.packet_index = true
  · rw [if_pos hgot] at he ⊢
    have heq : (frameSwitch s p).received_packets = (frameSwitch s p).expected_packets :=
      of_decide_eq_true he
    refine ⟨heq, fun j hj => ?_⟩
    have hcount : List.countP (fun j => (frameSwitch s p).got_packet j)
        (List.range (frameSwitch s p).expected_packets) = (frameSwitch s p).expected_packets := by
      rw [Inv, popcount] at h1
      omega
    exact all_got_of_countP hcount j hj
  · rw [if_neg hgot] at he ⊢
    have heq : (frameSwitch s p).received_packets + 1 = (frameSwitch s p).expected_packets :=
      of_decide_eq_true he
    refine ⟨heq, fun j hj => ?_⟩
    have hupd : List.countP
        (fun j => if j = p.packet_index then true else (frameSwitch s p).got_packet j)
        (List.range (frameSwitch s p).expected_packets) =
        List.countP (fun j => (frameSwitch s p).got_packet j)
          (List.range (frameSwitch s p).expected_packets) + 1 :=
      countP_update_true (List.mem_range.mpr (idx_lt_of_not_le hidx)) (List.nodup_range _)
        (got_false_of_not_true hgot)
    have hcount : List.countP
        (fun j => if j = p.packet_index then true else (frameSwitch s p).got_packet j)
        (List.range (frameSwitch s p).expected_packets) =
        (frameSwitch s p).expected_packets := by
      rw [Inv, popcount] at h1
      omega
    exact all_got_of_countP hcount j hj

lemma inv_run (s : RState) (ps : List Packet) (h : Inv s) : Inv (run s ps) := by
  induction ps generalizing s with
  | nil => exact h
  | cons p ps ih => exact ih (step s p) (inv_step p h)

/-- Claim C4: in every state reachable from process start by any datagram
sequence, a frame is rendered and swapped to the display only when
`received_packets` equals `expected_packets`, and at that moment every
required chunk index is marked received — a frame missing even one chunk
is never delivered to the sink. -/
theorem claim_C4 (ps : List Packet) (p : Packet)
    (hemit : (offer (run sInit ps) p).2 = true) :
    (offer (run sInit ps) p).1.received_packets =
      (offer (run sInit ps) p).1.expected_packets ∧
    ∀ j < (offer (run sInit ps) p).1.expected_packets,
      (offer (run sInit ps) p).1.got_packet j = true :=
  emit_complete (inv_run sInit ps inv_init) hemit

/-- Witness for C4 at a concrete input: a single-chunk frame completes on
its first chunk, and the completion state has its one required chunk
marked. -/
theorem claim_C4_witness :
    (offer (run sInit []) ⟨1, 0, 1, []⟩).1.received_packets =
      (offer (run sInit []) ⟨1, 0, 1, []⟩).1.expected_packets :=
  (claim_C4 [] ⟨1, 0, 1, []⟩ (by decide)).1

/-- Number of chunks in a full frame: `FRAME_BYTES / CHUNK_SIZE` (= 144). -/
def chunkTotal : Nat := FRAME_BYTES / CHUNK_SIZE

lemma chunkTotal_eq : chunkTotal = 144 := rfl

/-- The payload of chunk `j` of an original frame: its bytes
`j*CHUNK_SIZE .. j*CHUNK_SIZE + CHUNK_SIZE - 1`. -/
def payloadOf (frame : Nat → Nat) (j : Nat) : List Nat :=
  (List.range CHUNK_SIZE).map (fun i => frame (j * CHUNK_SIZE + i))

/-- A well-formed chunk of the frame `frame` tagged with frame id `fid`:
consistent total, in-range index, payload equal to the corresponding slice
of the original frame. -/
def WfChunk (frame : Nat → Nat) (fid : Nat) (p : Packet) : Prop :=
  p.frame_id = fid ∧ p.total_packets = chunkTotal ∧ p.packet_index < chunkTotal ∧
  p.payload = payloadOf frame p.packet_index

/-- The reassembly state as it stands right after switching to frame `fid`. -/
def freshState (fid : Nat) : RState := ⟨fun _ => 0, fid, chunkTotal, fun _ => false, 0⟩

/-- Invariant of a state assembling frame `fid` whose original bytes are
`frame`: correct id and expected count, counter/bitmap invariant, and every
byte whose chunk is marked received already holds the original frame's
byte. -/
def Assembling (frame : Nat → Nat) (fid : Nat) (s : RState) : Prop :=
  s.current_frame_id = fid ∧ s.expected_packets = chunkTotal ∧ Inv s ∧
  (∀ i, i < FRAME_BYTES → s.got_packet (i / CHUNK_SIZE) = true → s.frame_buf i = frame i)

lemma payloadOf_length (frame : Nat → Nat) (j : Nat) :
    (payloadOf frame j).length = CHUNK_SIZE := by
  rw [payloadOf, List.length_map, List.length_range]

lemma payloadOf_getD (frame : Nat → Nat) (j k : Nat) (hk : k < CHUNK_SIZE) :
    (payloadOf frame j).getD k 0 = frame (j * CHUNK_SIZE + k) := by
  rw [payloadOf, List.getD_eq_getElem?_getD, List.getElem?_map, List.getElem?_range hk]
  rfl

lemma writeBytes_payload {frame : Nat → Nat} (buf : Nat → Nat) {j : Nat} (_hj : j < chunkTotal)
    {i : Nat} (_hi : i < FRAME_BYTES) :
    writeBytes buf (j * CHUNK_SIZE) (payloadOf frame j) i =
      if i / CHUNK_SIZE = j then frame i else buf i := by
  simp only [writeBytes, payloadOf_length]
  by_cases hin : j * CHUNK_SIZE ≤ i ∧ i < j * CHUNK_SIZE + CHUNK_SIZE
  · rw [if_pos hin, if_pos (show i / CHUNK_SIZE = j by
      rw [CHUNK_SIZE_eq] at hin ⊢; omega)]
    rw [payloadOf_getD frame j (i - j * CHUNK_SIZE) (by
      rw [CHUNK_SIZE_eq] at hin ⊢; omega)]
    congr 1
    rw [CHUNK_SIZE_eq] at hin ⊢
    omega
  · rw [if_neg hin, if_neg (show ¬i / CHUNK_SIZE = j by
      rw [CHUNK_SIZE_eq] at hin ⊢; omega)]

lemma offer_accept_dup {s : RState} {p : Packet}
    (hsw : frameSwitch s p = s)
    (hl : p.payload.length ≤ CHUNK_SIZE)
    (hidx : p.packet_index < s.expected_packets)
    (hoff : p.packet_index * CHUNK_SIZE < FRAME_BYTES)
    (hgot : s.got_packet p.packet_index = true) :
    offer s p =
      (⟨writeBytes s.frame_buf (p.packet_index * CHUNK_SIZE) (p.payload.take (copyLen p)),
        s.current_frame_id, s.expected_packets, s.got_packet, s.received_packets⟩,
        decide (s.received_packets = s.expected_packets)) := by
  simp only [offer, hsw]
  rw [if_neg (Nat.not_lt.mpr hl), if_neg (Nat.not_le.mpr hidx), if_neg (Nat.not_le.mpr hoff),
    if_pos hgot]

lemma offer_accept_new {s : RState} {p : Packet}
    (hsw : frameSwitch s p = s)
    (hl : p.payload.length ≤ CHUNK_SIZE)
    (hidx : p.packet_index < s.expected_packets)
    (hoff : p.packet_index * CHUNK_SIZE < FRAME_BYTES)
    (hgot : ¬s.got_packet p.packet_index = true) :
    offer s p =
      (⟨writeBytes s.frame_buf (p.packet_index * CHUNK_SIZE) (p.payload.take (copyLen p)),
        s.current_frame_id, s.expected_packets,
        fun j => if j = p.packet_index then true else s.got_packet j,
        s.received_packets + 1⟩,
        decide (s.received_packets + 1 = s.expected_packets)) := by
  simp only [offer, hsw]
  rw [if_neg (Nat.not_lt.mpr hl), if_neg (Nat.not_le.mpr hidx), if_neg (Nat.not_le.mpr hoff),
    if_neg hgot]

lemma run_cons (s : RState) (p : Packet) (ps : List Packet) :
    run s (p :: ps) = run (step s p) ps := rfl

lemma runFrames_cons (s : RState) (p : Packet) (ps : List Packet) :
    runFrames s (p :: ps) =
      (if (offer s p).2 then [(offer s p).1.frame_buf] else []) ++
        runFrames (offer s p).1 ps := rfl

lemma step_wf {frame : Nat → Nat} {fid : Nat} {s : RState} {p : Packet}
    (hs : Assembling frame fid s) (hp : WfChunk frame fid p) :
    Assembling frame fid (step s p) ∧
    (step s p).got_packet p.packet_index = true ∧
    (∀ j, s.got_packet j = true → (step s p).got_packet j = true) ∧
    ((offer s p).2 = true ↔
      (step s p).received_packets = (step s p).expected_packets) := by
  obtain ⟨hid, hexp, hinv, hbuf⟩ := hs
  obtain ⟨hpfid, hptot, hpidx, hppay⟩ := hp
  have hsw : frameSwitch s p = s := frameSwitch_same (by rw [hpfid, hid])
  have hlen : p.payload.length = CHUNK_SIZE := by rw [hppay, payloadOf_length]
  have hl : p.payload.length ≤ CHUNK_SIZE := Nat.le_of_eq hlen
  have hidx : p.packet_index < s.expected_packets := by rw [hexp]; exact hpidx
  have h144 : p.packet_index < 144 := by rw [chunkTotal_eq] at hpidx; exact hpidx
  have hoff : p.packet_index * CHUNK_SIZE < FRAME_BYTES := by
    rw [CHUNK_SIZE_eq, FRAME_BYTES_eq]
    omega
  have hnc : ¬FRAME_BYTES < p.packet_index * CHUNK_SIZE + p.payload.length := by
    rw [hlen, CHUNK_SIZE_eq, FRAME_BYTES_eq]
    omega
  have hcle : p.payload.take (copyLen p) = p.payload := by
    rw [show copyLen p = p.payload.length by simp only [copyLen, if_neg hnc]]
    exact List.take_length p.payload
  have hinv2 : Inv (step s p) := inv_step p hinv
  by_cases hgot : s.got_packet p.packet_index = true
  · have hof := offer_accept_dup hsw hl hidx hoff hgot
    have hstep : step s p =
        ⟨writeBytes s.frame_buf (p.packet_index * CHUNK_SIZE) (p.payload.take (copyLen p)),
          s.current_frame_id, s.expected_packets, s.got_packet, s.received_packets⟩ := by
      rw [step, hof]
    refine ⟨⟨?_, ?_, hinv2, ?_⟩, ?_, ?_, ?_⟩
    · rw [hstep]; exact hid
    · rw [hstep]; exact hexp
    · intro i hi hgi
      rw [hstep] at hgi ⊢
      rw [hcle, hppay]
      show writeBytes s.frame_buf (p.packet_index * CHUNK_SIZE) (payloadOf frame p.packet_index)
        i = frame i
      rw [writeBytes_payload s.frame_buf hpidx hi]
      by_cases hd : i / CHUNK_SIZE = p.packet_index
      · rw [if_pos hd]
      · rw [if_neg hd]
        exact hbuf i hi hgi
    · rw [hstep]; exact hgot
    · intro j hj; rw [hstep]; exact hj
    · rw [hof, hstep]
      simp
  · have hof := offer_accept_new hsw hl hidx hoff hgot
    have hstep : step s p =
        ⟨writeBytes s.frame_buf (p.packet_index * CHUNK_SIZE) (p.payload.take (copyLen p)),
          s.current_frame_id, s.expected_packets,
          fun j => if j = p.packet_index then true else s.got_packet j,
          s.received_packets + 1⟩ := by
      rw [step, hof]
    refine ⟨⟨?_, ?_, hinv2, ?_⟩, ?_, ?_, ?_⟩
    · rw [hstep]; exact hid
    · rw [hstep]; exact hexp
    · intro i hi hgi
      rw [hstep] at hgi ⊢
      rw [hcle, hppay]
      show writeBytes s.frame_buf (p.packet_index * CHUNK_SIZE) (payloadOf frame p.packet_index)
        i = frame i
      rw [writeBytes_payload s.frame_buf hpidx hi]
      by_cases hd : i / CHUNK_SIZE = p.packet_index
      · rw [if_pos hd]
      · rw [if_neg hd]
        apply hbuf i hi
        have hgi2 : (if i / CHUNK_SIZE = p.packet_index then true
            else s.got_packet (i / CHUNK_SIZE)) = true := hgi
        rw [if_neg hd] at hgi2
        exact hgi2
    · rw [hstep]
      simp
    · intro j hj
      rw [hstep]
      show (if j = p.packet_index then true else s.got_packet j) = true
      by_cases hd : j = p.packet_index
      · rw [if_pos hd]
      · rw [if_neg hd]; exact hj
    · rw [hof, hstep]
      simp

lemma run_wf {frame : Nat → Nat} {fid : Nat} {ps : List Packet} :
    ∀ {s : RState}, Assembling frame fid s → (∀ p ∈ ps, WfChunk frame fid p) →
      Assembling frame fid (run s ps) ∧
      (∀ j, s.got_packet j = true → (run s ps).got_packet j = true) ∧
      (∀ p ∈ ps, (run s ps).got_packet p.packet_index = true) := by
  induction ps with
  | nil =>
      intro s hs _
      exact ⟨hs, fun _ hj => hj, fun p hp => absurd hp (List.not_mem_nil p)⟩
  | cons p ps ih =>
      intro s hs hwf
      have h1 := step_wf hs (hwf p (List.mem_cons_self p ps))
      have h2 := ih h1.1 (fun q hq => hwf q (List.mem_cons_of_mem p hq))
      rw [run_cons]
      refine ⟨h2.1, fun j hj => h2.2.1 j (h1.2.2.1 j hj), ?_⟩
      intro q hq
      rcases List.mem_cons.mp hq with hq1 | hq2
      · rw [hq1]
        exact h2.2.1 p.packet_index h1.2.1
      · exact h2.2.2 q hq2

lemma runFrames_wf {frame : Nat → Nat} {fid : Nat} {ps : List Packet} :
    ∀ {s : RState}, Assembling frame fid s → (∀ p ∈ ps, WfChunk frame fid p) →
      ∀ f ∈ runFrames s ps, ∀ i, i < FRAME_BYTES → f i = frame i := by
  induction ps with
  | nil => intro s _ _ f hf; simp [runFrames] at hf
  | cons p ps ih =>
      intro s hs hwf f hf i hi
      rw [runFrames_cons] at hf
      rcases List.mem_append.mp hf with hf1 | hf2
      · by_cases he : (offer s p).2 = true
        · rw [if_pos he] at hf1
          have hfeq : f = (offer s p).1.frame_buf := by simpa using hf1
          have h1 := step_wf hs (hwf p (List.mem_cons_self p ps))
          have hallgot : ∀ j, j < chunkTotal → (step s p).got_packet j = true := by
            intro j hj
            apply (emit_complete hs.2.2.1 he).2
            rw [show (offer s p).1.expected_packets = chunkTotal from h1.1.2.1]
            exact hj
          have hdi : i / CHUNK_SIZE < chunkTotal := by
            rw [CHUNK_SIZE_eq, chunkTotal_eq]
            rw [FRAME_BYTES_eq] at hi
            omega
          rw [hfeq]
          exact h1.1.2.2.2 i hi (hallgot _ hdi)
        · rw [if_neg he] at hf1; simp at hf1
      · exact ih (step_wf hs (hwf p (List.mem_cons_self p ps))).1
          (fun q hq => hwf q (List.mem_cons_of_mem p hq)) f hf2 i hi

lemma no_emit_lt {frame : Nat → Nat} {fid : Nat} {ps : List Packet} :
    ∀ {s : RState}, Assembling frame fid s → (∀ p ∈ ps, WfChunk frame fid p) →
      runFrames s ps = [] → s.received_packets < chunkTotal →
      (run s ps).received_packets < chunkTotal := by
  induction ps with
  | nil => intro s _ _ _ h; exact h
  | cons p ps ih =>
      intro s hs hwf hno hlt
      rw [runFrames_cons] at hno
      have hparts := List.append_eq_nil.mp hno
      have h1 := step_wf hs (hwf p (List.mem_cons_self p ps))
      have hne : ¬(offer s p).2 = true := by
        intro he
        rw [if_pos he] at hparts
        exact absurd hparts.1 (by simp)
      have hnotfull : (step s p).received_packets ≠ (step s p).expected_packets :=
        fun heq => hne (h1.2.2.2.mpr heq)
      have hexp2 : (step s p).expected_packets = chunkTotal := h1.1.2.1
      have hle : (step s p).received_packets ≤ chunkTotal := by
        have hinv2 : Inv (step s p) := h1.1.2.2.1
        rw [Inv, popcount, hexp2] at hinv2
        have hb : List.countP (fun j => (step s p).got_packet j)
            (List.range chunkTotal) ≤ (List.range chunkTotal).length :=
          List.countP_le_length _
        rw [List.length_range] at hb
        omega
      have hlt2 : (step s p).received_packets < chunkTotal := by omega
      exact ih h1.1 (fun q hq => hwf q (List.mem_cons_of_mem p hq)) hparts.2 hlt2

/-- Claim C3: for every complete well-formed frame (consistent totals,
every chunk index covered, payloads equal to the corresponding slices of
the original frame), and for EVERY delivery ordering of its chunks —
arbitrary order, duplicates included — offering them all from process
start displays at least one frame, every frame displayed is byte-identical
to the original, and the final frame buffer is byte-identical to the
original: the result is independent of arrival order. -/
theorem claim_C3 (frame : Nat → Nat) (fid : Nat) (ps : List Packet)
    (hfid : fid ≠ 0)
    (hwf : ∀ p ∈ ps, WfChunk frame fid p)
    (hcov : ∀ j, j < chunkTotal → ∃ p ∈ ps, p.packet_index = j) :
    runFrames sInit ps ≠ [] ∧
    (∀ f ∈ runFrames sInit ps, ∀ i, i < FRAME_BYTES → f i = frame i) ∧
    (∀ i, i < FRAME_BYTES → (run sInit ps).frame_buf i = frame i) := by
  cases ps with
  | nil =>
      obtain ⟨p, hp, _⟩ := hcov 0 (by rw [chunkTotal_eq]; omega)
      exact absurd hp (List.not_mem_nil p)
  | cons q rest =>
      have hq := hwf q (List.mem_cons_self q rest)
      have hne : q.frame_id ≠ sInit.current_frame_id := by
        intro h
        apply hfid
        rw [← hq.1, h]
        rfl
      have hlenq : q.payload.length ≤ CHUNK_SIZE := by
        rw [hq.2.2.2, payloadOf_length]
      have hswq : frameSwitch sInit q = freshState fid := by
        rw [frameSwitch_new hne, freshState, hq.1, hq.2.1]
      have hoq : offer sInit q = offer (freshState fid) q := by
        rw [offer_switch hlenq, hswq]
      have hAR : Assembling frame fid (freshState fid) := by
        refine ⟨rfl, rfl, ?_, ?_⟩
        · rw [Inv, popcount]
          simp [freshState]
        · intro i _ hg
          simp [freshState] at hg
      have hrfr : runFrames sInit (q :: rest) = runFrames (freshState fid) (q :: rest) := by
        rw [runFrames_cons, runFrames_cons, hoq]
      have hrr : run sInit (q :: rest) = run (freshState fid) (q :: rest) := by
        rw [run_cons, run_cons]
        congr 1
        rw [step, step, hoq]
      have hrw := run_wf hAR hwf
      have hallgot : ∀ j, j < chunkTotal →
          (run (freshState fid) (q :: rest)).got_packet j = true := by
        intro j hj
        obtain ⟨p, hpmem, hpidx⟩ := hcov j hj
        have h := hrw.2.2 p hpmem
        rw [hpidx] at h
        exact h
      have hcount : List.countP (fun j => (run (freshState fid) (q :: rest)).got_packet j)
          (List.range chunkTotal) = chunkTotal := by
        have h2 : List.countP (fun j => (run (freshState fid) (q :: rest)).got_packet j)
            (List.range chunkTotal) = (List.range chunkTotal).length := by
          rw [List.countP_eq_length]
          intro a ha
          exact hallgot a (List.mem_range.mp ha)
        rw [h2, List.length_range]
      have hrecv : (run (freshState fid) (q :: rest)).received_packets = chunkTotal := by
        have hinvf : Inv (run (freshState fid) (q :: rest)) := hrw.1.2.2.1
        rw [Inv, popcount, hrw.1.2.1] at hinvf
        rw [hinvf, hcount]
      refine ⟨?_, ?_, ?_⟩
      · rw [hrfr]
        intro hempty
        have hzero : (freshState fid).received_packets < chunkTotal := by
          rw [chunkTotal_eq]
          show 0 < 144
          omega
        have := no_emit_lt hAR hwf hempty hzero
        rw [hrecv] at this
        exact Nat.lt_irrefl _ this
      · rw [hrfr]
        exact runFrames_wf hAR hwf
      · rw [hrr]
        intro i hi
        have hdi : i / CHUNK_SIZE < chunkTotal := by
          rw [CHUNK_SIZE_eq, chunkTotal_eq]
          rw [FRAME_BYTES_eq] at hi
          omega
        exact hrw.1.2.2.2 i hi (hallgot _ hdi)

/-- An all-zero original frame, used as a concrete witness input. -/
def constFrame : Nat → Nat := fun _ => 0

/-- The in-order complete chunk list of `constFrame` under frame id 1. -/
def fullChunkList : List Packet :=
  (List.range chunkTotal).map (fun j => ⟨1, j, chunkTotal, List.replicate CHUNK_SIZE 0⟩)

/-- Witness for C3 at a concrete input: offering the 144 well-formed
chunks of an all-zero frame (id 1) from process start displays at least
one frame. -/
theorem claim_C3_witness : runFrames sInit fullChunkList ≠ [] := by
  have hwf : ∀ p ∈ fullChunkList, WfChunk constFrame 1 p := by
    intro p hp
    rw [fullChunkList] at hp
    obtain ⟨j, hj, rfl⟩ := List.mem_map.mp hp
    refine ⟨rfl, rfl, List.mem_range.mp hj, ?_⟩
    show List.replicate CHUNK_SIZE 0 = payloadOf constFrame j
    rw [payloadOf]
    rw [show (fun i => constFrame (j * CHUNK_SIZE + i)) = fun _ => (0 : Nat) from rfl]
    rw [List.map_const', List.length_range]
  have hcov : ∀ j, j < chunkTotal → ∃ p ∈ fullChunkList, p.packet_index = j := by
    intro j hj
    refine ⟨⟨1, j, chunkTotal, List.replicate CHUNK_SIZE 0⟩, ?_, rfl⟩
    rw [fullChunkList]
    exact List.mem_map_of_mem _ (List.mem_range.mpr hj)
  exact (claim_C3 constFrame 1 fullChunkList (by decide) hwf hcov).1

end UdpReceiver

namespace StreamDaemon

/-- Logical display width of the stream daemon (matrix_daemon.cc). -/
def LOGICAL_WIDTH : Nat := 256

/-- Logical display height of the stream daemon. -/
def LOGICAL_HEIGHT : Nat := 192

/-- Exact byte count of one streamed frame
(`LOGICAL_WIDTH * LOGICAL_HEIGHT * 3`). -/
def expected_size : Nat := LOGICAL_WIDTH * LOGICAL_HEIGHT * 3

lemma expected_size_eq : expected_size = 147456 := rfl

/-- `ReadNBytes` (lines 31-41) modelled over the connection's availability
schedule: `pieces` lists, in order, the byte groups successive `recv`
calls can return; each call returns `min(piece length, still requested)`
bytes, any remainder of the piece staying available for the next call; an
empty piece models a zero-byte read (EOF) or an error, on which
`ReadNBytes` returns false (`none`).  On success it returns the exact `n`
bytes read plus what remains available. -/
def readNBytes : List (List Nat) → Nat → Option (List Nat × List (List Nat))
  | ps, 0 => some ([], ps)
  | [], _ + 1 => none
  | p :: ps, m + 1 =>
      if p.length = 0 then none
      else if p.length ≤ m + 1 then
        match readNBytes ps (m + 1 - p.length) with
        | none => none
        | some (g, rest) => some (p ++ g, rest)
      else some (p.take (m + 1), p.drop (m + 1) :: ps)

/-- The per-connection serve loop (lines 120-140): repeatedly read exactly
`expected_size` bytes and present that frame; on a failed read (disconnect)
stop, discarding any partial data.  `fuel` bounds how many iterations are
modelled (the real loop runs until disconnect or shutdown). -/
def serveFrames : Nat → List (List Nat) → List (List Nat)
  | 0, _ => []
  | fuel + 1, pieces =>
      match readNBytes pieces expected_size with
      | none => []
      | some (g, rest) => g :: serveFrames fuel rest

/-- The outer accept loop (lines 109-141): serve each accepted connection
until it disconnects, then accept the next one. -/
def acceptLoop (fuel : Nat) : List (List (List Nat)) → List (List Nat)
  | [] => []
  | conn :: conns => serveFrames fuel conn ++ acceptLoop fuel conns

/-- The `j`-th `expected_size`-byte slices of a byte stream, `j < K`. -/
def sliceFrames (bytes : List Nat) (K : Nat) : List (List Nat) :=
  (List.range K).map (fun j => (bytes.drop (j * expected_size)).take expected_size)

lemma readNBytes_nil_pos (n : Nat) (h : n ≠ 0) : readNBytes [] n = none := by
  match n with
  | 0 => exact absurd rfl h
  | m + 1 => simp [readNBytes]

lemma readNBytes_spec : ∀ (pieces : List (List Nat)) (n : Nat),
    (∀ p ∈ pieces, p ≠ []) → n ≤ pieces.flatten.length →
    ∃ rest, readNBytes pieces n = some (pieces.flatten.take n, rest) ∧
      rest.flatten = pieces.flatten.drop n ∧ (∀ p ∈ rest, p ≠ []) := by
  intro pieces
  induction pieces with
  | nil =>
      intro n _ hn
      simp only [List.flatten_nil, List.length_nil, Nat.le_zero] at hn
      subst hn
      exact ⟨[], by simp [readNBytes], by simp, by simp⟩
  | cons p ps ih =>
      intro n hne hn
      match n with
      | 0 => exact ⟨p :: ps, by simp [readNBytes], by simp, hne⟩
      | m + 1 =>
          have hp : p ≠ [] := hne p (List.mem_cons_self p ps)
          have hplen : ¬p.length = 0 := fun h0 => hp (List.length_eq_zero.mp h0)
          rw [List.flatten_cons, List.length_append] at hn
          by_cases hle : p.length ≤ m + 1
          · have hn2 : m + 1 - p.length ≤ ps.flatten.length := by omega
            obtain ⟨rest, heq, hflat, hrne⟩ := ih (m + 1 - p.length)
              (fun q hq => hne q (List.mem_cons_of_mem p hq)) hn2
            refine ⟨rest, ?_, ?_, hrne⟩
            · simp only [readNBytes, if_neg hplen, if_pos hle, heq]
              rw [List.flatten_cons, List.take_append_eq_append_take,
                List.take_of_length_le hle]
            · rw [hflat, List.flatten_cons, List.drop_append_eq_append_drop,
                List.drop_eq_nil_iff.mpr hle, List.nil_append]
          · refine ⟨p.drop (m + 1) :: ps, ?_, ?_, ?_⟩
            · simp only [readNBytes, if_neg hplen, if_neg hle]
              rw [List.flatten_cons, List.take_append_of_le_length (by omega)]
            · rw [List.flatten_cons, List.flatten_cons,
                List.drop_append_of_le_length (by omega)]
            · intro q hq
              rcases List.mem_cons.mp hq with h | h
              · rw [h]
                intro hnil
                rw [List.drop_eq_nil_iff] at hnil
                omega
              · exact hne q (List.mem_cons_of_mem p h)

lemma readNBytes_length : ∀ (pieces : List (List Nat)) (n : Nat) (g : List Nat)
    (rest : List (List Nat)), readNBytes pieces n = some (g, rest) → g.length = n := by
  intro pieces
  induction pieces with
  | nil =>
      intro n g rest h
      match n with
      | 0 =>
          simp only [readNBytes, Option.some.injEq, Prod.mk.injEq] at h
          rw [← h.1]
          rfl
      | m + 1 => simp [readNBytes] at h
  | cons p ps ih =>
      intro n g rest h
      match n with
      | 0 =>
          simp only [readNBytes, Option.some.injEq, Prod.mk.injEq] at h
          rw [← h.1]
          rfl
      | m + 1 =>
          simp only [readNBytes] at h
          by_cases hplen : p.length = 0
          · rw [if_pos hplen] at h
            simp at h
          rw [if_neg hplen] at h
          by_cases hle : p.length ≤ m + 1
          · rw [if_pos hle] at h
            cases heq : readNBytes ps (m + 1 - p.length) with
            | none => rw [heq] at h; simp at h
            | some gr =>
                obtain ⟨g2, rest2⟩ := gr
                rw [heq] at h
                simp only [Option.some.injEq, Prod.mk.injEq] at h
                have hlen2 := ih (m + 1 - p.length) g2 rest2 heq
                rw [← h.1, List.length_append, hlen2]
                omega
          · rw [if_neg hle] at h
            simp only [Option.some.injEq, Prod.mk.injEq] at h
            rw [← h.1, List.length_take]
            omega

lemma serveFrames_nil_of_none {fuel : Nat} {pieces : List (List Nat)}
    (h : readNBytes pieces expected_size = none) : serveFrames fuel pieces = [] := by
  match fuel with
  | 0 => rfl
  | fuel + 1 => simp only [serveFrames, h]

/-- Claim C9: a successful `ReadNBytes` returns exactly the requested byte
count (short reads are retried into the same in-flight buffer until the
count is reached); a failed read (zero-byte read / error, i.e. disconnect)
at a frame boundary yields no frame at all; and every frame the serve loop
presents has exactly the fixed frame size — a partial frame is never
presented. -/
theorem claim_C9 :
    (∀ pieces n g rest, readNBytes pieces n = some (g, rest) → g.length = n) ∧
    (∀ fuel pieces, readNBytes pieces expected_size = none → serveFrames fuel pieces = []) ∧
    (∀ fuel pieces g, g ∈ serveFrames fuel pieces → g.length = expected_size) := by
  refine ⟨readNBytes_length, fun _ _ h => serveFrames_nil_of_none h, ?_⟩
  intro fuel
  induction fuel with
  | zero =>
      intro pieces g hg
      simp [serveFrames] at hg
  | succ fuel ih =>
      intro pieces g hg
      cases heq : readNBytes pieces expected_size with
      | none => rw [serveFrames_nil_of_none heq] at hg; simp at hg
      | some pr =>
          obtain ⟨g2, rest⟩ := pr
          simp only [serveFrames, heq] at hg
          rcases List.mem_cons.mp hg with h | h
          · rw [h]
            exact readNBytes_length pieces expected_size g2 rest heq
          · exact ih rest g h

/-- Witness for C9 at a concrete input: reading 1 byte from a 1-byte piece
returns exactly 1 byte. -/
theorem claim_C9_witness :
    readNBytes [[7]] 1 = some ([7], []) ∧ ([7] : List Nat).length = 1 := by
  refine ⟨rfl, ?_⟩
  exact claim_C9.1 [[7]] 1 [7] [] rfl

lemma sliceFrames_zero (bytes : List Nat) : sliceFrames bytes 0 = [] := by
  simp [sliceFrames]

lemma sliceFrames_succ (bytes : List Nat) (K : Nat) :
    sliceFrames bytes (K + 1) =
      bytes.take expected_size :: sliceFrames (bytes.drop expected_size) K := by
  rw [sliceFrames, sliceFrames, List.range_succ_eq_map, List.map_cons, List.map_map]
  have h1 : (bytes.drop (0 * expected_size)).take expected_size =
      bytes.take expected_size := by
    rw [Nat.zero_mul, List.drop_zero]
  have h2 : List.map ((fun j => (bytes.drop (j * expected_size)).take expected_size) ∘ Nat.succ)
      (List.range K) =
      List.map (fun j => ((bytes.drop expected_size).drop (j * expected_size)).take
        expected_size) (List.range K) := by
    apply List.map_congr_left
    intro j _
    show (bytes.drop ((j + 1) * expected_size)).take expected_size =
      ((bytes.drop expected_size).drop (j * expected_size)).take expected_size
    rw [List.drop_drop,
      show (j + 1) * expected_size = expected_size + j * expected_size from by ring]
  rw [h1, h2]

lemma serveFrames_complete : ∀ (K : Nat) (pieces : List (List Nat)) (fuel : Nat),
    (∀ p ∈ pieces, p ≠ []) → pieces.flatten.length = expected_size * K → K ≤ fuel →
    serveFrames fuel pieces = sliceFrames pieces.flatten K := by
  intro K
  induction K with
  | zero =>
      intro pieces fuel hne hlen _
      have hnil : pieces = [] := by
        cases pieces with
        | nil => rfl
        | cons p ps =>
            have hp := hne p (List.mem_cons_self p ps)
            rw [List.flatten_cons, List.length_append, Nat.mul_zero] at hlen
            have h0 : p.length = 0 := by omega
            exact absurd (List.length_eq_zero.mp h0) hp
      subst hnil
      rw [sliceFrames_zero]
      exact serveFrames_nil_of_none (readNBytes_nil_pos expected_size (by decide))
  | succ K ih =>
      intro pieces fuel hne hlen hfuel
      match fuel with
      | 0 => exact absurd hfuel (by omega)
      | f + 1 =>
          have hES : expected_size ≤ pieces.flatten.length := by
            rw [hlen, Nat.mul_succ]
            exact Nat.le_add_left _ _
          obtain ⟨rest, heq, hflat, hrne⟩ := readNBytes_spec pieces expected_size hne hES
          have hrlen : rest.flatten.length = expected_size * K := by
            rw [hflat, List.length_drop, hlen]
            rw [expected_size_eq] at *
            omega
          simp only [serveFrames, heq]
          rw [ih rest f hrne hrlen (by omega), hflat, sliceFrames_succ]

/-- Claim C7: for every `K` and every partition of a byte stream of exactly
`expected_size * K` bytes into arbitrary nonempty read-sized pieces, the
serve loop (given enough iterations) yields exactly `K` completed frames,
in order, the `j`-th being byte-identical to the `j`-th `expected_size`-byte
slice of the stream — framing is purely positional. -/
theorem claim_C7 (pieces : List (List Nat)) (K fuel : Nat)
    (hne : ∀ p ∈ pieces, p ≠ [])
    (hlen : pieces.flatten.length = expected_size * K)
    (hfuel : K ≤ fuel) :
    serveFrames fuel pieces = sliceFrames pieces.flatten K ∧
    (serveFrames fuel pieces).length = K := by
  have main := serveFrames_complete K pieces fuel hne hlen hfuel
  refine ⟨main, ?_⟩
  rw [main, sliceFrames, List.length_map, List.length_range]

/-- Witness for C7 at a concrete input: a single connection delivering one
whole `expected_size`-byte frame in one piece yields exactly 1 frame. -/
theorem claim_C7_witness :
    (serveFrames 1 [List.replicate expected_size 0]).length = 1 := by
  have h := claim_C7 [List.replicate expected_size 0] 1 1
    (by
      intro p hp
      rw [List.mem_singleton] at hp
      rw [hp]
      intro hnil
      have hl := congrArg List.length hnil
      rw [List.length_replicate, List.length_nil, expected_size_eq] at hl
      exact absurd hl (by decide))
    (by
      simp only [List.flatten_cons, List.flatten_nil, List.append_nil,
        List.length_replicate, Nat.mul_one])
    (Nat.le_refl 1)
  exact h.2

/-- `offscreen->SetPixel(x, y, r, g, b)` on a canvas modelled as a
coordinate-indexed function to RGB triples. -/
def setPixel (c : Nat → Nat → Nat × Nat × Nat) (x y r g b : Nat) :
    Nat → Nat → Nat × Nat × Nat :=
  fun x0 y0 => if x0 = x ∧ y0 = y then (r, g, b) else c x0 y0

/-- The RGB triple stored in the stream buffer for buffer row `ybuf`,
column `x`: bytes `idx`, `idx+1`, `idx+2` with
`idx = 3 * (ybuf * LOGICAL_WIDTH + x)` (row-major, 3 bytes per pixel). -/
def pixelAt (buffer : Nat → Nat) (ybuf x : Nat) : Nat × Nat × Nat :=
  (buffer (3 * (ybuf * LOGICAL_WIDTH + x)),
   buffer (3 * (ybuf * LOGICAL_WIDTH + x) + 1),
   buffer (3 * (ybuf * LOGICAL_WIDTH + x) + 2))

/-- The inner loop over `X` (lines 131-136) for buffer row `ybuf`,
restricted to the first `m` columns: each column's RGB bytes are written
to display row `LOGICAL_HEIGHT - 1 - ybuf`. -/
def rowFold (buffer : Nat → Nat) (ybuf m : Nat) (c : Nat → Nat → Nat × Nat × Nat) :
    Nat → Nat → Nat × Nat × Nat :=
  (List.range m).foldl
    (fun c2 x => setPixel c2 x (LOGICAL_HEIGHT - 1 - ybuf)
      (buffer (3 * (ybuf * LOGICAL_WIDTH + x)))
      (buffer (3 * (ybuf * LOGICAL_WIDTH + x) + 1))
      (buffer (3 * (ybuf * LOGICAL_WIDTH + x) + 2))) c

/-- The outer loop over `y_buf` (lines 129-137), restricted to the first
`m` buffer rows. -/
def colFold (buffer : Nat → Nat) (m : Nat) (c : Nat → Nat → Nat × Nat × Nat) :
    Nat → Nat → Nat × Nat × Nat :=
  (List.range m).foldl (fun c2 ybuf => rowFold buffer ybuf LOGICAL_WIDTH c2) c

/-- The whole render copy with vertical flip (lines 127-137). -/
def renderFlipped (buffer : Nat → Nat) (c : Nat → Nat → Nat × Nat × Nat) :
    Nat → Nat → Nat × Nat × Nat :=
  colFold buffer LOGICAL_HEIGHT c

lemma rowFold_apply (buffer : Nat → Nat) (ybuf : Nat) :
    ∀ (m : Nat) (c : Nat → Nat → Nat × Nat × Nat) (x0 y0 : Nat),
      rowFold buffer ybuf m c x0 y0 =
        if x0 < m ∧ y0 = LOGICAL_HEIGHT - 1 - ybuf then pixelAt buffer ybuf x0
        else c x0 y0 := by
  intro m
  induction m with
  | zero =>
      intro c x0 y0
      simp only [rowFold, List.range_zero, List.foldl_nil]
      rw [if_neg]
      rintro ⟨h1, _⟩
      exact Nat.not_lt_zero x0 h1
  | succ m ih =>
      intro c x0 y0
      have hrow : rowFold buffer ybuf (m + 1) c =
          setPixel (rowFold buffer ybuf m c) m (LOGICAL_HEIGHT - 1 - ybuf)
            (buffer (3 * (ybuf * LOGICAL_WIDTH + m)))
            (buffer (3 * (ybuf * LOGICAL_WIDTH + m) + 1))
            (buffer (3 * (ybuf * LOGICAL_WIDTH + m) + 2)) := by
        simp only [rowFold, List.range_succ, List.foldl_append, List.foldl_cons,
          List.foldl_nil]
      rw [hrow]
      simp only [setPixel]
      by_cases hx : x0 = m ∧ y0 = LOGICAL_HEIGHT - 1 - ybuf
      · rw [if_pos hx, if_pos ⟨Nat.lt_succ_of_le (Nat.le_of_eq hx.1), hx.2⟩]
        obtain ⟨h1, _⟩ := hx
        subst h1
        rfl
      · rw [if_neg hx, ih c x0 y0]
        by_cases h2 : x0 < m ∧ y0 = LOGICAL_HEIGHT - 1 - ybuf
        · rw [if_pos h2, if_pos ⟨Nat.lt_succ_of_lt h2.1, h2.2⟩]
        · have hneg : ¬(x0 < m + 1 ∧ y0 = LOGICAL_HEIGHT - 1 - ybuf) := by
            rintro ⟨ha, hb⟩
            by_cases hm : x0 = m
            · exact hx ⟨hm, hb⟩
            · exact h2 ⟨by omega, hb⟩
          rw [if_neg h2, if_neg hneg]

lemma colFold_apply (buffer : Nat → Nat) :
    ∀ (m : Nat), m ≤ LOGICAL_HEIGHT → ∀ (c : Nat → Nat → Nat × Nat × Nat) (x0 y0 : Nat),
      colFold buffer m c x0 y0 =
        if x0 < LOGICAL_WIDTH ∧ y0 < LOGICAL_HEIGHT ∧ LOGICAL_HEIGHT ≤ y0 + m then
          pixelAt buffer (LOGICAL_HEIGHT - 1 - y0) x0
        else c x0 y0 := by
  intro m
  induction m with
  | zero =>
      intro _ c x0 y0
      simp only [colFold, List.range_zero, List.foldl_nil]
      rw [if_neg]
      rintro ⟨_, h2, h3⟩
      omega
  | succ m ih =>
      intro hm c x0 y0
      have hcol : colFold buffer (m + 1) c =
          rowFold buffer m LOGICAL_WIDTH (colFold buffer m c) := by
        simp only [colFold, List.range_succ, List.foldl_append, List.foldl_cons,
          List.foldl_nil]
      rw [hcol, rowFold_apply]
      by_cases hx : x0 < LOGICAL_WIDTH ∧ y0 = LOGICAL_HEIGHT - 1 - m
      · obtain ⟨hx1, hx2⟩ := hx
        rw [if_pos ⟨hx1, hx2⟩]
        have hy0 : y0 < LOGICAL_HEIGHT := by omega
        rw [if_pos ⟨hx1, hy0, by omega⟩]
        rw [show LOGICAL_HEIGHT - 1 - y0 = m by omega]
      · rw [if_neg hx, ih (by omega) c x0 y0]
        by_cases h2 : x0 < LOGICAL_WIDTH ∧ y0 < LOGICAL_HEIGHT ∧ LOGICAL_HEIGHT ≤ y0 + m
        · rw [if_pos h2, if_pos ⟨h2.1, h2.2.1, by omega⟩]
        · have hneg : ¬(x0 < LOGICAL_WIDTH ∧ y0 < LOGICAL_HEIGHT ∧
              LOGICAL_HEIGHT ≤ y0 + (m + 1)) := by
            rintro ⟨ha, hb, hc⟩
            by_cases hd : LOGICAL_HEIGHT ≤ y0 + m
            · exact h2 ⟨ha, hb, hd⟩
            · exact hx ⟨ha, by omega⟩
          rw [if_neg h2, if_neg hneg]

/-- Claim C8: the render copy flips the vertical axis on ingest — for all
`ybuf < LOGICAL_HEIGHT` and `x < LOGICAL_WIDTH`, the pixel stored in the
buffer at row-major position `3 * (ybuf * LOGICAL_WIDTH + x)` (bottom-left
origin) ends up at display coordinate `(x, LOGICAL_HEIGHT - 1 - ybuf)`,
with the R, G, B byte order preserved. -/
theorem claim_C8 (buffer : Nat → Nat) (c0 : Nat → Nat → Nat × Nat × Nat)
    (x ybuf : Nat) (hx : x < LOGICAL_WIDTH) (hy : ybuf < LOGICAL_HEIGHT) :
    renderFlipped buffer c0 x (LOGICAL_HEIGHT - 1 - ybuf) =
      (buffer (3 * (ybuf * LOGICAL_WIDTH + x)),
       buffer (3 * (ybuf * LOGICAL_WIDTH + x) + 1),
       buffer (3 * (ybuf * LOGICAL_WIDTH + x) + 2)) := by
  rw [renderFlipped, colFold_apply buffer LOGICAL_HEIGHT (Nat.le_refl _) c0 x _]
  rw [if_pos ⟨hx, by omega, by omega⟩]
  rw [show LOGICAL_HEIGHT - 1 - (LOGICAL_HEIGHT - 1 - ybuf) = ybuf by omega]
  rfl

/-- Witness for C8 at a concrete input: on an all-zero buffer, the pixel of
buffer row 0, column 0 lands at the bottom display row as (0, 0, 0). -/
theorem claim_C8_witness :
    renderFlipped (fun _ => 0) (fun _ _ => (0, 0, 0)) 0 (LOGICAL_HEIGHT - 1) = (0, 0, 0) := by
  have h := claim_C8 (fun _ => 0) (fun _ _ => (0, 0, 0)) 0 0 (by decide) (by decide)
  simpa using h

end StreamDaemon
